import Mathlib

/-!
Verification of the habit persistence and statistics engine of the
habit-tracker-svelte repository (`src/lib/db/index.ts`).

Shallow embedding conventions:
* Calendar dates are modelled as `Int` day numbers counted from 1970-01-01
  (the JavaScript epoch), with the civil (proleptic Gregorian) calendar
  realised by explicit conversion functions, so `Date` field accessors
  (`getFullYear`, `getMonth`, `getUTCDay`) and the source's ISO week-number
  helper are faithful computable functions on day numbers.  The engine's
  `YYYY-MM-DD` storage keys are in bijection with day numbers; the model
  works in a single (UTC) time zone, as the spec's data model assumes.
* The durable store (two `localStorage` entries holding JSON) is modelled
  by the structure `DB`: the habit array as a `List Habit`, the completion
  object as an insertion-ordered association list from day number to the
  array of completed habit ids, matching a JavaScript object's key order
  and uniqueness behaviour.
* The source's unbounded `while` loops in `updateStreak` are embedded as
  the fueled iteration `streakAux`; each mode supplies a fuel value that is
  proved sufficient (`streakAux_stable`), so the embedded function agrees
  with the source loop whenever the source loop terminates, and the
  termination theorem for claim C8 shows the fuel bound is reached.
-/

/-! ## Civil calendar arithmetic (Hinnant's algorithm, days since 1970-01-01) -/

/-- Convert a day number (days since 1970-01-01) to a civil `(year, month, day)`
triple with `month ∈ [1,12]`, on the proleptic Gregorian calendar — the
arithmetic JavaScript `Date` performs for its UTC accessors. -/
def civilFromDays (z0 : Int) : Int × Nat × Nat :=
  let z := z0 + 719468
  let era : Int := Int.fdiv z 146097
  let doe : Nat := (z - era * 146097).toNat
  let yoe : Nat := (doe - doe / 1460 + doe / 36524 - doe / 146096) / 365
  let y : Int := (yoe : Int) + era * 400
  let doy : Nat := doe - (365 * yoe + yoe / 4 - yoe / 100)
  let mp : Nat := (5 * doy + 2) / 153
  let d : Nat := doy - (153 * mp + 2) / 5 + 1
  let m : Nat := if mp < 10 then mp + 3 else mp - 9
  (if m ≤ 2 then y + 1 else y, m, d)

/-- Convert a civil `(year, month, day)` date (`month ∈ [1,12]`) to its day
number relative to 1970-01-01. -/
def daysFromCivil (y0 : Int) (m d : Nat) : Int :=
  let y := if m ≤ 2 then y0 - 1 else y0
  let era : Int := Int.fdiv y 400
  let yoe : Nat := (y - era * 400).toNat
  let mp : Nat := (m + 9) % 12
  let doy : Nat := (153 * mp + 2) / 5 + d - 1
  let doe : Nat := yoe * 365 + yoe / 4 - yoe / 100 + doy
  era * 146097 + (doe : Int) - 719468

/-- Day of week of a day number, `0 = Sunday … 6 = Saturday`, matching
JavaScript's `Date.prototype.getUTCDay` (1970-01-01 was a Thursday). -/
def dayOfWeek (z : Int) : Nat := ((z + 4).emod 7).toNat

/-- Year component of a day number (JavaScript `getFullYear` in UTC). -/
def getFullYear (z : Int) : Int := (civilFromDays z).1

/-- Zero-based month component of a day number (JavaScript `getMonth`,
`0 = January … 11 = December`). -/
def getMonth (z : Int) : Nat := (civilFromDays z).2.1 - 1

/-- The source's `getWeekNumber` helper: ISO-8601 week number of the date.
It shifts the date to the Thursday of its Monday-to-Sunday week and counts
weeks from January 1 of that Thursday's year, exactly as the TypeScript
code does with UTC date arithmetic. -/
def getWeekNumber (z : Int) : Int :=
  let dow := dayOfWeek z
  let dayNum : Nat := if dow = 0 then 7 else dow
  let thu := z + 4 - dayNum
  let ty := (civilFromDays thu).1
  let yearStart := daysFromCivil ty 1 1
  Int.fdiv (thu - yearStart + 1 + 6) 7

/-- Day number of the Thursday of the Monday-to-Sunday week containing `z`.
Two dates lie in the same ISO week (of the same year) iff their Thursdays
coincide; used to state the spec's week-of-a-specific-year reading. -/
def thursdayOf (z : Int) : Int :=
  let dow := dayOfWeek z
  let dayNum : Nat := if dow = 0 then 7 else dow
  z + 4 - dayNum

/-! ## Data model -/

/-- The habit recurrence granularity (`'daily' | 'weekly' | 'monthly'`). -/
inductive Frequency where
  | daily
  | weekly
  | monthly
deriving DecidableEq

/-- The `Habit` record of `src/lib/db/index.ts`. -/
structure Habit where
  id : Nat
  name : String
  frequency : Frequency
  target : Nat
  streak : Nat
  category : String
  created_at : String
  reminder_time : Option String
  notes : Option String
deriving DecidableEq

/-- The durable state: the `habitflow_habits` array and the
`habitflow_completions` object.  The completion object is an
insertion-ordered association list from day number to the day's array of
completed habit ids (JavaScript object keys are unique and iterate in
insertion order). -/
structure DB where
  habits : List Habit
  completions : List (Int × List Nat)
deriving DecidableEq

/-- Result record of `getHabitStats`. -/
structure Stats where
  streak : Nat
  completed : Nat
  total_required : Nat
  completion_rate : Nat
deriving DecidableEq

/-- The `Partial<Omit<Habit, 'id' | 'created_at'>>` argument of
`updateHabit`: every habit field except `id` and `created_at` may be
present (`some`) or absent (`none`).  For the two fields that are already
optional on `Habit`, a present entry carries the new optional value. -/
structure HabitUpdates where
  name : Option String := none
  frequency : Option Frequency := none
  target : Option Nat := none
  streak : Option Nat := none
  category : Option String := none
  reminder_time : Option (Option String) := none
  notes : Option (Option String) := none

/-- Object spread `{...habit, ...updates}`: fields present in `updates`
override, all others are kept; `id` and `created_at` cannot occur in
`updates` and are always kept. -/
def applyUpdates (h : Habit) (u : HabitUpdates) : Habit :=
  { id := h.id
    name := u.name.getD h.name
    frequency := u.frequency.getD h.frequency
    target := u.target.getD h.target
    streak := u.streak.getD h.streak
    category := u.category.getD h.category
    created_at := h.created_at
    reminder_time := u.reminder_time.getD h.reminder_time
    notes := u.notes.getD h.notes }

/-! ## Association-list primitives for the completion object -/

/-- Key lookup `completions[day]` on the completion object. -/
def bucketOf : List (Int × List Nat) → Int → Option (List Nat)
  | [], _ => none
  | (k, b) :: rest, d => if k = d then some b else bucketOf rest d

/-- Key assignment `completions[day] = bucket`: overwrites the existing
entry in place, or appends a new entry at the end (JavaScript object
property-assignment order). -/
def setBucket : List (Int × List Nat) → Int → List Nat → List (Int × List Nat)
  | [], d, b => [(d, b)]
  | (k, v) :: rest, d, b =>
    if k = d then (d, b) :: rest else (k, v) :: setBucket rest d b

/-- `habits[habits.findIndex(h => h.id === id)] = f(...)`: rewrite the first
habit with the given id, leave everything else in place. -/
def updateFirstWith : List Habit → Nat → (Habit → Habit) → List Habit
  | [], _, _ => []
  | h :: rest, id, f =>
    if h.id = id then f h :: rest else h :: updateFirstWith rest id f

/-! ## Streak computation (`updateStreak`'s three loops) -/

/-- Fueled form of the source's backwards-walking streak loops: starting
from state `s`, count consecutive states (under `step`) satisfying
`present`, stopping at the first failure.  `fuel` bounds the iteration; each
caller passes a fuel value proved sufficient, so the value agrees with the
source's unbounded `while` loop. -/
def streakAux {σ : Type} (present : σ → Bool) (step : σ → σ) : Nat → σ → Nat
  | 0, _ => 0
  | fuel + 1, s => if present s then streakAux present step fuel (step s) + 1 else 0

/-- Minimum of a list of integers, with default `t` for the empty list. -/
def minWith (t : Int) (xs : List Int) : Int := xs.foldr min t

/-- The completion entries whose bucket contains `id` — the only entries
that can sustain any of the three streak loops. -/
def entriesWith (cs : List (Int × List Nat)) (id : Nat) : List (Int × List Nat) :=
  cs.filter (fun p => p.2.contains id)

/-- Daily-loop guard: `completions[dateKey]?.includes(habitId)`. -/
def presentDaily (cs : List (Int × List Nat)) (id : Nat) (d : Int) : Bool :=
  ((bucketOf cs d).getD []).contains id

/-- Weekly-loop guard: some stored date has ISO week number `w` (the year is
not compared) and its bucket contains the habit. -/
def presentWeekly (cs : List (Int × List Nat)) (id : Nat) (w : Int) : Bool :=
  cs.any (fun p => getWeekNumber p.1 == w && p.2.contains id)

/-- Monthly-loop guard at month `my.1` (zero-based) of year `my.2`: some
stored date has that month and year and its bucket contains the habit. -/
def presentMonthly (cs : List (Int × List Nat)) (id : Nat) (my : Nat × Int) : Bool :=
  cs.any (fun p => getMonth p.1 == my.1 && getFullYear p.1 == my.2 && p.2.contains id)

/-- One step of the monthly loop: `currentMonth--` with wrap-around
`(0, y) ↦ (11, y - 1)`. -/
def stepMonth (my : Nat × Int) : Nat × Int :=
  if my.1 = 0 then (11, my.2 - 1) else (my.1 - 1, my.2)

/-- Linear measure of a month state, strictly decreasing along `stepMonth`. -/
def monthMeasure (my : Nat × Int) : Int := my.2 * 12 + my.1

/-- Days (day numbers) on which the habit has a completion. -/
def dailyLows (cs : List (Int × List Nat)) (id : Nat) : List Int :=
  (entriesWith cs id).map (fun p => p.1)

/-- ISO week numbers of days on which the habit has a completion. -/
def weeklyLows (cs : List (Int × List Nat)) (id : Nat) : List Int :=
  (entriesWith cs id).map (fun p => getWeekNumber p.1)

/-- Month measures of days on which the habit has a completion. -/
def monthlyLows (cs : List (Int × List Nat)) (id : Nat) : List Int :=
  (entriesWith cs id).map (fun p => getFullYear p.1 * 12 + (getMonth p.1 : Int))

/-- Fuel sufficient for the daily loop started at day `t`. -/
def dailyFuel (cs : List (Int × List Nat)) (id : Nat) (t : Int) : Nat :=
  (t - minWith t (dailyLows cs id)).toNat + 1

/-- Fuel sufficient for the weekly loop started at week number `w`. -/
def weeklyFuel (cs : List (Int × List Nat)) (id : Nat) (w : Int) : Nat :=
  (w - minWith w (weeklyLows cs id)).toNat + 1

/-- Fuel sufficient for the monthly loop started at month state `my`. -/
def monthlyFuel (cs : List (Int × List Nat)) (id : Nat) (my : Nat × Int) : Nat :=
  (monthMeasure my - minWith (monthMeasure my) (monthlyLows cs id)).toNat + 1

/-- The three streak loops of `updateStreak` with an explicit fuel bound on
the number of iterations. -/
def computeStreakFuel (freq : Frequency) (cs : List (Int × List Nat)) (id : Nat)
    (today : Int) (fuel : Nat) : Nat :=
  match freq with
  | .daily => streakAux (presentDaily cs id) (fun d => d - 1) fuel today
  | .weekly => streakAux (presentWeekly cs id) (fun w => w - 1) fuel (getWeekNumber today)
  | .monthly =>
    streakAux (presentMonthly cs id) stepMonth fuel (getMonth today, getFullYear today)

/-- The streak value `updateStreak` computes for a habit of the given
frequency from the completion object, with reference date `today`. -/
def computeStreak (freq : Frequency) (cs : List (Int × List Nat)) (id : Nat)
    (today : Int) : Nat :=
  match freq with
  | .daily => computeStreakFuel .daily cs id today (dailyFuel cs id today)
  | .weekly => computeStreakFuel .weekly cs id today (weeklyFuel cs id (getWeekNumber today))
  | .monthly =>
    computeStreakFuel .monthly cs id today
      (monthlyFuel cs id (getMonth today, getFullYear today))

/-! ## Engine operations -/

/-- `initializeDatabase` bootstrap: both collections empty. -/
def initialDB : DB := ⟨[], []⟩

/-- `addHabit`: assigns `max(existing ids) + 1` (or `1` for an empty
collection), appends the habit with `streak = 0` and the caller-supplied
creation timestamp, and returns the new state together with the new id. -/
def addHabit (db : DB) (name : String) (frequency : Frequency) (target : Nat)
    (category : String) (reminder_time : Option String) (notes : Option String)
    (created_at : String) : DB × Nat :=
  let id := match db.habits with
    | [] => 1
    | _ => (db.habits.map (fun h => h.id)).foldr max 0 + 1
  (⟨db.habits ++
      [⟨id, name, frequency, target, 0, category, created_at, reminder_time, notes⟩],
    db.completions⟩, id)

/-- `deleteHabit`: drops the habit from the collection and filters its id
out of every day bucket. -/
def deleteHabit (db : DB) (id : Nat) : DB :=
  ⟨db.habits.filter (fun h => h.id != id),
   db.completions.map (fun p => (p.1, p.2.filter (fun x => x != id)))⟩

/-- `updateStreak`: recomputes and stores the streak of the habit found by
id; returns the state unchanged when no habit matches. -/
def updateStreak (today : Int) (db : DB) (habitId : Nat) : DB :=
  match db.habits.find? (fun h => h.id == habitId) with
  | none => db
  | some hb =>
    ⟨updateFirstWith db.habits habitId
        (fun h => { h with streak := computeStreak hb.frequency db.completions habitId today }),
     db.completions⟩

/-- `if (!completions[todayKey]) completions[todayKey] = []`: lazily create
today's bucket (appended at the end of the object, JavaScript property
order) when it does not exist yet. -/
def ensureBucket (today : Int) (cs : List (Int × List Nat)) : List (Int × List Nat) :=
  match bucketOf cs today with
  | none => cs ++ [(today, [])]
  | some _ => cs

/-- The completion-object update performed by `toggleHabitCompletion`:
after the lazy bucket creation, push the id into today's bucket when
completing and it is not yet there, filter it out when un-completing, and
leave the object alone when completing an already-present id. -/
def toggleCompletions (today : Int) (cs : List (Int × List Nat)) (habitId : Nat)
    (completed : Bool) : List (Int × List Nat) :=
  if completed && !((bucketOf (ensureBucket today cs) today).getD []).contains habitId then
    setBucket (ensureBucket today cs) today
      (((bucketOf (ensureBucket today cs) today).getD []) ++ [habitId])
  else if !completed then
    setBucket (ensureBucket today cs) today
      (((bucketOf (ensureBucket today cs) today).getD []).filter (fun x => x != habitId))
  else ensureBucket today cs

/-- `toggleHabitCompletion`: writes the updated completion object and then
runs `updateStreak`.  Note the source writes the completion object before
the habit lookup that happens inside `updateStreak`. -/
def toggleHabitCompletion (today : Int) (db : DB) (habitId : Nat)
    (completed : Bool) : DB :=
  updateStreak today ⟨db.habits, toggleCompletions today db.completions habitId completed⟩
    habitId

/-- `updateHabit`: merges the partial update into the first habit with the
given id; the completion object is untouched. -/
def updateHabit (db : DB) (id : Nat) (u : HabitUpdates) : DB :=
  ⟨updateFirstWith db.habits id (fun h => applyUpdates h u), db.completions⟩

/-- `getHabitStats`: zeroed stats with `total_required = 1` when the habit
does not exist (`habit?.target || 1` with `habit` undefined); otherwise the
cached streak, a binary completed flag for the current period, the target,
and `completed * 100` as the rate.  The weekly check compares only ISO week
numbers and the monthly check only zero-based months, as the source does. -/
def getHabitStats (today : Int) (db : DB) (habitId : Nat) : Stats :=
  match db.habits.find? (fun h => h.id == habitId) with
  | none => ⟨0, 0, 1, 0⟩
  | some hb =>
    let isCompleted : Bool :=
      match hb.frequency with
      | .daily => ((bucketOf db.completions today).getD []).contains habitId
      | .weekly =>
        db.completions.any
          (fun p => getWeekNumber p.1 == getWeekNumber today && p.2.contains habitId)
      | .monthly =>
        db.completions.any
          (fun p => getMonth p.1 == getMonth today && p.2.contains habitId)
    ⟨hb.streak, if isCompleted then 1 else 0, hb.target, if isCompleted then 100 else 0⟩

/-- Referential integrity of the completion index: every habit id recorded
in any day bucket belongs to a habit in the collection. -/
def RefIntegrity (db : DB) : Prop :=
  ∀ p ∈ db.completions, ∀ x ∈ p.2, ∃ h ∈ db.habits, h.id = x

instance (db : DB) : Decidable (RefIntegrity db) := by
  unfold RefIntegrity
  infer_instance

/-! ## Generic facts about the fueled backwards walk -/

theorem streakAux_eq_of {σ : Type} (present : σ → Bool) (step : σ → σ) :
    ∀ (n fuel : Nat) (s : σ), n ≤ fuel →
      present (step^[n] s) = false →
      (∀ i, i < n → present (step^[i] s) = true) →
      streakAux present step fuel s = n := by
  intro n
  induction n with
  | zero =>
    intro fuel s _ hstop _
    simp only [Function.iterate_zero, id] at hstop
    cases fuel with
    | zero => rfl
    | succ m => simp [streakAux, hstop]
  | succ n ih =>
    intro fuel s hle hstop hrun
    cases fuel with
    | zero => omega
    | succ m =>
      have h0 : present s = true := by
        have := hrun 0 (Nat.succ_pos n)
        simpa using this
      have hrec : streakAux present step m (step s) = n := by
        apply ih m (step s) (by omega)
        · have : step^[n + 1] s = step^[n] (step s) := Function.iterate_succ_apply step n s
          rw [← this]; exact hstop
        · intro i hi
          have := hrun (i + 1) (by omega)
          have hit : step^[i + 1] s = step^[i] (step s) := Function.iterate_succ_apply step i s
          rw [hit] at this
          exact this
      simp [streakAux, h0, hrec]

theorem minWith_le_self (t : Int) (xs : List Int) : minWith t xs ≤ t := by
  induction xs with
  | nil => simp [minWith]
  | cons x rest ih =>
    simp only [minWith, List.foldr_cons] at ih ⊢
    exact le_trans (min_le_right _ _) ih

theorem minWith_le_of_mem (t : Int) {xs : List Int} {x : Int} (hx : x ∈ xs) :
    minWith t xs ≤ x := by
  induction xs with
  | nil => cases hx
  | cons a rest ih =>
    simp only [minWith, List.foldr_cons]
    rcases List.mem_cons.mp hx with h | h
    · rw [h]; exact min_le_left _ _
    · exact le_trans (min_le_right _ _) (ih h)

theorem measure_iterate {σ : Type} (step : σ → σ) (μ : σ → Int)
    (hstep : ∀ x, μ (step x) = μ x - 1) :
    ∀ (k : Nat) (s : σ), μ (step^[k] s) = μ s - k := by
  intro k
  induction k with
  | zero => intro s; simp
  | succ k ih =>
    intro s
    have hit : step^[k + 1] s = step^[k] (step s) := Function.iterate_succ_apply step k s
    rw [hit, ih (step s), hstep s]
    push_cast
    ring

theorem exists_stop {σ : Type} (present : σ → Bool) (step : σ → σ) (μ : σ → Int)
    (lows : List Int) (s : σ)
    (hstep : ∀ x, μ (step x) = μ x - 1)
    (hpres : ∀ x, present x = true → μ x ∈ lows) :
    present (step^[(μ s - minWith (μ s) lows).toNat + 1] s) = false := by
  set N : Nat := (μ s - minWith (μ s) lows).toNat + 1 with hN
  by_contra hcon
  have hptrue : present (step^[N] s) = true := by
    cases h : present (step^[N] s) with
    | false => exact absurd h hcon
    | true => rfl
  have hmem := hpres _ hptrue
  have hle : minWith (μ s) lows ≤ μ (step^[N] s) := minWith_le_of_mem _ hmem
  have hmu : μ (step^[N] s) = μ s - N := measure_iterate step μ hstep N s
  have hself : minWith (μ s) lows ≤ μ s := minWith_le_self _ _
  rw [hmu] at hle
  omega

theorem streakAux_spec {σ : Type} (present : σ → Bool) (step : σ → σ)
    (fuel : Nat) (s : σ) (k : Nat) (hk : k ≤ fuel)
    (hstop : present (step^[k] s) = false) :
    (∀ i, i < streakAux present step fuel s → present (step^[i] s) = true) ∧
      present (step^[streakAux present step fuel s] s) = false := by
  have hex : ∃ i, present (step^[i] s) = false := ⟨k, hstop⟩
  set n0 := Nat.find hex with hn0
  have hstop0 : present (step^[n0] s) = false := Nat.find_spec hex
  have hmin : ∀ i, i < n0 → present (step^[i] s) = true := by
    intro i hi
    have := Nat.find_min hex hi
    cases h : present (step^[i] s) with
    | false => exact absurd h this
    | true => rfl
  have hle : n0 ≤ fuel := le_trans (Nat.find_min' hex hstop) hk
  have heq : streakAux present step fuel s = n0 :=
    streakAux_eq_of present step n0 fuel s hle hstop0 hmin
  rw [heq]
  exact ⟨hmin, hstop0⟩

theorem streakAux_stable {σ : Type} (present : σ → Bool) (step : σ → σ)
    (fuel₁ fuel₂ : Nat) (s : σ) (k : Nat) (hk₁ : k ≤ fuel₁) (hk₂ : k ≤ fuel₂)
    (hstop : present (step^[k] s) = false) :
    streakAux present step fuel₁ s = streakAux present step fuel₂ s := by
  have hex : ∃ i, present (step^[i] s) = false := ⟨k, hstop⟩
  have hstop0 : present (step^[Nat.find hex] s) = false := Nat.find_spec hex
  have hmin : ∀ i, i < Nat.find hex → present (step^[i] s) = true := by
    intro i hi
    have := Nat.find_min hex hi
    cases h : present (step^[i] s) with
    | false => exact absurd h this
    | true => rfl
  rw [streakAux_eq_of present step (Nat.find hex) fuel₁ s
      (le_trans (Nat.find_min' hex hstop) hk₁) hstop0 hmin,
    streakAux_eq_of present step (Nat.find hex) fuel₂ s
      (le_trans (Nat.find_min' hex hstop) hk₂) hstop0 hmin]

/-! ## Mode-specific facts feeding the generic lemmas -/

theorem bucketOf_mem {cs : List (Int × List Nat)} {d : Int} {b : List Nat}
    (h : bucketOf cs d = some b) : (d, b) ∈ cs := by
  induction cs with
  | nil => cases h
  | cons p rest ih =>
    obtain ⟨k, v⟩ := p
    by_cases hk : k = d
    · simp only [bucketOf, if_pos hk] at h
      subst hk
      injection h with h
      subst h
      exact List.mem_cons_self _ _
    · simp only [bucketOf, if_neg hk] at h
      exact List.mem_cons_of_mem _ (ih h)

theorem presentDaily_mem_lows {cs : List (Int × List Nat)} {id : Nat} {d : Int}
    (h : presentDaily cs id d = true) : d ∈ dailyLows cs id := by
  unfold presentDaily at h
  cases hb : bucketOf cs d with
  | none => rw [hb] at h; simp [List.contains] at h
  | some b =>
    rw [hb] at h
    simp only [Option.getD_some] at h
    have hmem : (d, b) ∈ cs := bucketOf_mem hb
    unfold dailyLows entriesWith
    exact List.mem_map_of_mem _ (List.mem_filter.mpr ⟨hmem, h⟩)

theorem presentWeekly_mem_lows {cs : List (Int × List Nat)} {id : Nat} {w : Int}
    (h : presentWeekly cs id w = true) : w ∈ weeklyLows cs id := by
  unfold presentWeekly at h
  rw [List.any_eq_true] at h
  obtain ⟨p, hp, hcond⟩ := h
  rw [Bool.and_eq_true] at hcond
  obtain ⟨hweq, hcont⟩ := hcond
  have hw : getWeekNumber p.1 = w := by exact_mod_cast beq_iff_eq.mp hweq
  unfold weeklyLows entriesWith
  rw [← hw]
  exact List.mem_map_of_mem _ (List.mem_filter.mpr ⟨hp, hcont⟩)

theorem presentMonthly_mem_lows {cs : List (Int × List Nat)} {id : Nat}
    {my : Nat × Int} (h : presentMonthly cs id my = true) :
    monthMeasure my ∈ monthlyLows cs id := by
  unfold presentMonthly at h
  rw [List.any_eq_true] at h
  obtain ⟨p, hp, hcond⟩ := h
  rw [Bool.and_eq_true, Bool.and_eq_true] at hcond
  obtain ⟨⟨hmeq, hyeq⟩, hcont⟩ := hcond
  have hm : getMonth p.1 = my.1 := beq_iff_eq.mp hmeq
  have hy : getFullYear p.1 = my.2 := beq_iff_eq.mp hyeq
  unfold monthlyLows entriesWith monthMeasure
  have : (getFullYear p.1 * 12 + (getMonth p.1 : Int)) = my.2 * 12 + (my.1 : Int) := by
    rw [hm, hy]
  rw [← this]
  exact List.mem_map_of_mem _ (List.mem_filter.mpr ⟨hp, hcont⟩)

theorem stepMonth_measure (my : Nat × Int) :
    monthMeasure (stepMonth my) = monthMeasure my - 1 := by
  obtain ⟨m, y⟩ := my
  by_cases hm : m = 0
  · subst hm
    simp [stepMonth, monthMeasure]
    ring
  · have h1 : 1 ≤ m := Nat.one_le_iff_ne_zero.mpr hm
    simp only [stepMonth, monthMeasure, if_neg hm]
    have : ((m - 1 : Nat) : Int) = (m : Int) - 1 := by omega
    rw [this]
    ring

theorem subOne_iterate (i : Nat) (t : Int) : (fun d => d - 1)^[i] t = t - i := by
  induction i generalizing t with
  | zero => simp
  | succ i ih =>
    rw [Function.iterate_succ_apply, ih]
    push_cast
    ring

theorem dailyStop (cs : List (Int × List Nat)) (id : Nat) (t : Int) :
    presentDaily cs id ((fun d => d - 1)^[dailyFuel cs id t] t) = false := by
  unfold dailyFuel
  exact exists_stop (presentDaily cs id) (fun d => d - 1) (fun d => d)
    (dailyLows cs id) t (fun x => rfl) (fun x h => presentDaily_mem_lows h)

theorem weeklyStop (cs : List (Int × List Nat)) (id : Nat) (w : Int) :
    presentWeekly cs id ((fun x => x - 1)^[weeklyFuel cs id w] w) = false := by
  unfold weeklyFuel
  exact exists_stop (presentWeekly cs id) (fun x => x - 1) (fun x => x)
    (weeklyLows cs id) w (fun x => rfl) (fun x h => presentWeekly_mem_lows h)

theorem monthlyStop (cs : List (Int × List Nat)) (id : Nat) (my : Nat × Int) :
    presentMonthly cs id (stepMonth^[monthlyFuel cs id my] my) = false := by
  unfold monthlyFuel
  exact exists_stop (presentMonthly cs id) stepMonth monthMeasure
    (monthlyLows cs id) my stepMonth_measure (fun x h => presentMonthly_mem_lows h)

/-- Fuel value actually used by `computeStreak` for each frequency. -/
def neededFuel (freq : Frequency) (cs : List (Int × List Nat)) (id : Nat)
    (t : Int) : Nat :=
  match freq with
  | .daily => dailyFuel cs id t
  | .weekly => weeklyFuel cs id (getWeekNumber t)
  | .monthly => monthlyFuel cs id (getMonth t, getFullYear t)

theorem computeStreak_eq_fuel (freq : Frequency) (cs : List (Int × List Nat))
    (id : Nat) (t : Int) :
    computeStreak freq cs id t = computeStreakFuel freq cs id t (neededFuel freq cs id t) := by
  cases freq <;> rfl

theorem dailyStreak_spec (cs : List (Int × List Nat)) (id : Nat) (t : Int) :
    (∀ i, i < computeStreak .daily cs id t → presentDaily cs id (t - i) = true) ∧
      presentDaily cs id (t - computeStreak .daily cs id t) = false := by
  have h := streakAux_spec (presentDaily cs id) (fun d => d - 1)
    (dailyFuel cs id t) t (dailyFuel cs id t) (le_refl _) (dailyStop cs id t)
  have hcs : computeStreak .daily cs id t =
      streakAux (presentDaily cs id) (fun d => d - 1) (dailyFuel cs id t) t := rfl
  constructor
  · intro i hi
    have := h.1 i (by rw [← hcs]; exact hi)
    rwa [subOne_iterate] at this
  · have := h.2
    rw [subOne_iterate] at this
    rw [hcs]
    exact this

theorem weeklyStreak_spec (cs : List (Int × List Nat)) (id : Nat) (t : Int) :
    (∀ i, i < computeStreak .weekly cs id t →
        presentWeekly cs id (getWeekNumber t - i) = true) ∧
      presentWeekly cs id (getWeekNumber t - computeStreak .weekly cs id t) = false := by
  have h := streakAux_spec (presentWeekly cs id) (fun w => w - 1)
    (weeklyFuel cs id (getWeekNumber t)) (getWeekNumber t)
    (weeklyFuel cs id (getWeekNumber t)) (le_refl _) (weeklyStop cs id (getWeekNumber t))
  have hcs : computeStreak .weekly cs id t =
      streakAux (presentWeekly cs id) (fun w => w - 1)
        (weeklyFuel cs id (getWeekNumber t)) (getWeekNumber t) := rfl
  constructor
  · intro i hi
    have := h.1 i (by rw [← hcs]; exact hi)
    rwa [subOne_iterate] at this
  · have := h.2
    rw [subOne_iterate] at this
    rw [hcs]
    exact this

theorem monthlyStreak_spec (cs : List (Int × List Nat)) (id : Nat) (t : Int) :
    (∀ i, i < computeStreak .monthly cs id t →
        presentMonthly cs id (stepMonth^[i] (getMonth t, getFullYear t)) = true) ∧
      presentMonthly cs id
        (stepMonth^[computeStreak .monthly cs id t] (getMonth t, getFullYear t)) = false := by
  have h := streakAux_spec (presentMonthly cs id) stepMonth
    (monthlyFuel cs id (getMonth t, getFullYear t)) (getMonth t, getFullYear t)
    (monthlyFuel cs id (getMonth t, getFullYear t)) (le_refl _)
    (monthlyStop cs id (getMonth t, getFullYear t))
  have hcs : computeStreak .monthly cs id t =
      streakAux (presentMonthly cs id) stepMonth
        (monthlyFuel cs id (getMonth t, getFullYear t)) (getMonth t, getFullYear t) := rfl
  rw [hcs]
  exact h

/-! ## Facts about the completion-object and habit-list primitives -/

theorem contains_eq_false {l : List Nat} {a : Nat} :
    l.contains a = false ↔ a ∉ l := by
  simp [List.contains]

theorem bucketOf_setBucket_self (cs : List (Int × List Nat)) (d : Int) (b : List Nat) :
    bucketOf (setBucket cs d b) d = some b := by
  induction cs with
  | nil => simp [setBucket, bucketOf]
  | cons p rest ih =>
    obtain ⟨k, v⟩ := p
    by_cases hk : k = d
    · simp [setBucket, bucketOf, hk]
    · simp [setBucket, bucketOf, hk, ih]

theorem bucketOf_setBucket_ne (cs : List (Int × List Nat)) (d d' : Int)
    (b : List Nat) (hne : d' ≠ d) :
    bucketOf (setBucket cs d b) d' = bucketOf cs d' := by
  have hne' : ¬d = d' := fun h => hne h.symm
  induction cs with
  | nil => simp [setBucket, bucketOf, hne']
  | cons p rest ih =>
    obtain ⟨k, v⟩ := p
    by_cases hk : k = d
    · subst hk
      simp [setBucket, bucketOf, hne']
    · simp only [setBucket, if_neg hk, bucketOf]
      by_cases hk' : k = d'
      · simp [hk']
      · simp [hk', ih]

theorem setBucket_eq_self {cs : List (Int × List Nat)} {d : Int} {b : List Nat}
    (h : bucketOf cs d = some b) : setBucket cs d b = cs := by
  induction cs with
  | nil => cases h
  | cons p rest ih =>
    obtain ⟨k, v⟩ := p
    by_cases hk : k = d
    · subst hk
      simp only [bucketOf, if_pos rfl] at h
      injection h with h
      subst h
      simp [setBucket]
    · simp only [bucketOf, if_neg hk] at h
      simp [setBucket, hk, ih h]

theorem setBucket_mem {cs : List (Int × List Nat)} {d : Int} {b : List Nat}
    {p : Int × List Nat} (h : p ∈ setBucket cs d b) : p = (d, b) ∨ p ∈ cs := by
  induction cs with
  | nil => simp [setBucket] at h; exact Or.inl h
  | cons q rest ih =>
    obtain ⟨k, v⟩ := q
    by_cases hk : k = d
    · simp only [setBucket, if_pos hk] at h
      rcases List.mem_cons.mp h with h | h
      · exact Or.inl h
      · exact Or.inr (List.mem_cons_of_mem _ h)
    · simp only [setBucket, if_neg hk] at h
      rcases List.mem_cons.mp h with h | h
      · exact Or.inr (h ▸ List.mem_cons_self _ _)
      · rcases ih h with h | h
        · exact Or.inl h
        · exact Or.inr (List.mem_cons_of_mem _ h)

theorem bucketOf_append_singleton_self {cs : List (Int × List Nat)} {d : Int}
    (b : List Nat) (h : bucketOf cs d = none) :
    bucketOf (cs ++ [(d, b)]) d = some b := by
  induction cs with
  | nil => simp [bucketOf]
  | cons p rest ih =>
    obtain ⟨k, v⟩ := p
    by_cases hk : k = d
    · subst hk
      simp [bucketOf] at h
    · simp only [bucketOf, if_neg hk] at h
      simp only [List.cons_append, bucketOf, if_neg hk]
      exact ih h

theorem bucketOf_append_singleton_ne (cs : List (Int × List Nat)) (d d' : Int)
    (b : List Nat) (hne : d' ≠ d) :
    bucketOf (cs ++ [(d, b)]) d' = bucketOf cs d' := by
  have hne' : ¬d = d' := fun h => hne h.symm
  induction cs with
  | nil => simp [bucketOf, hne']
  | cons p rest ih =>
    obtain ⟨k, v⟩ := p
    by_cases hk : k = d'
    · simp [bucketOf, hk]
    · simp only [List.cons_append, bucketOf, if_neg hk]
      exact ih

theorem updateFirstWith_eq_self {l : List Habit} {id : Nat} {f : Habit → Habit}
    (h : ∀ hb ∈ l, hb.id ≠ id) : updateFirstWith l id f = l := by
  induction l with
  | nil => rfl
  | cons hb rest ih =>
    have h1 : hb.id ≠ id := h hb (List.mem_cons_self _ _)
    simp only [updateFirstWith, if_neg h1]
    rw [ih (fun x hx => h x (List.mem_cons_of_mem _ hx))]

theorem updateFirstWith_ids {l : List Habit} {id : Nat} {f : Habit → Habit}
    (hf : ∀ hb, (f hb).id = hb.id) {x : Nat} (h : ∃ hb ∈ l, hb.id = x) :
    ∃ hb ∈ updateFirstWith l id f, hb.id = x := by
  induction l with
  | nil => obtain ⟨_, hmem, _⟩ := h; cases hmem
  | cons hb rest ih =>
    obtain ⟨h0, hmem, hid⟩ := h
    by_cases hk : hb.id = id
    · simp only [updateFirstWith, if_pos hk]
      rcases List.mem_cons.mp hmem with heq | hmem'
      · exact ⟨f hb, List.mem_cons_self _ _, by rw [hf hb, ← heq, hid]⟩
      · exact ⟨h0, List.mem_cons_of_mem _ hmem', hid⟩
    · simp only [updateFirstWith, if_neg hk]
      rcases List.mem_cons.mp hmem with heq | hmem'
      · exact ⟨hb, List.mem_cons_self _ _, by rw [← heq, hid]⟩
      · obtain ⟨h1, hmem1, hid1⟩ := ih ⟨h0, hmem', hid⟩
        exact ⟨h1, List.mem_cons_of_mem _ hmem1, hid1⟩

theorem updateFirstWith_forall₂ (l : List Habit) (id : Nat) (f : Habit → Habit) :
    List.Forall₂ (fun hb hb' => hb' = hb ∨ (hb.id = id ∧ hb' = f hb))
      l (updateFirstWith l id f) := by
  induction l with
  | nil => exact List.Forall₂.nil
  | cons hb rest ih =>
    by_cases hk : hb.id = id
    · simp only [updateFirstWith, if_pos hk]
      refine List.Forall₂.cons (Or.inr ⟨hk, rfl⟩) ?_
      rw [List.forall₂_same]
      intro x _
      exact Or.inl rfl
    · simp only [updateFirstWith, if_neg hk]
      exact List.Forall₂.cons (Or.inl rfl) ih

theorem updateStreak_completions (t : Int) (db : DB) (id : Nat) :
    (updateStreak t db id).completions = db.completions := by
  unfold updateStreak
  cases db.habits.find? (fun h => h.id == id) <;> rfl

/-- A bucket membership reading of the weekly guard: the source's weekly
checks match on the ISO week number alone, for dates of any year. -/
theorem presentWeekly_iff (cs : List (Int × List Nat)) (id : Nat) (w : Int) :
    presentWeekly cs id w = true ↔ ∃ p ∈ cs, getWeekNumber p.1 = w ∧ id ∈ p.2 := by
  unfold presentWeekly
  rw [List.any_eq_true]
  constructor
  · rintro ⟨p, hp, hcond⟩
    rw [Bool.and_eq_true] at hcond
    refine ⟨p, hp, beq_iff_eq.mp hcond.1, ?_⟩
    have := hcond.2
    simpa [List.contains] using this
  · rintro ⟨p, hp, hw, hmem⟩
    refine ⟨p, hp, ?_⟩
    rw [Bool.and_eq_true]
    exact ⟨beq_iff_eq.mpr hw, by simpa [List.contains] using hmem⟩

/-- Prop reading of the daily guard. -/
theorem presentDaily_iff (cs : List (Int × List Nat)) (id : Nat) (d : Int) :
    presentDaily cs id d = true ↔ ∃ b, bucketOf cs d = some b ∧ id ∈ b := by
  unfold presentDaily
  cases hb : bucketOf cs d with
  | none => simp [List.contains]
  | some b => simp [List.contains]

/-- Prop reading of the monthly guard: zero-based month and year must both
match (within the streak loop the source does compare the year). -/
theorem presentMonthly_iff (cs : List (Int × List Nat)) (id : Nat) (my : Nat × Int) :
    presentMonthly cs id my = true ↔
      ∃ p ∈ cs, getMonth p.1 = my.1 ∧ getFullYear p.1 = my.2 ∧ id ∈ p.2 := by
  unfold presentMonthly
  rw [List.any_eq_true]
  constructor
  · rintro ⟨p, hp, hcond⟩
    rw [Bool.and_eq_true, Bool.and_eq_true] at hcond
    refine ⟨p, hp, beq_iff_eq.mp hcond.1.1, beq_iff_eq.mp hcond.1.2, ?_⟩
    have := hcond.2
    simpa [List.contains] using this
  · rintro ⟨p, hp, hm, hy, hmem⟩
    refine ⟨p, hp, ?_⟩
    rw [Bool.and_eq_true, Bool.and_eq_true]
    exact ⟨⟨beq_iff_eq.mpr hm, beq_iff_eq.mpr hy⟩, by simpa [List.contains] using hmem⟩

theorem presentDaily_false {cs : List (Int × List Nat)} {id : Nat}
    (h : ∀ p ∈ cs, id ∉ p.2) (d : Int) : presentDaily cs id d = false := by
  unfold presentDaily
  cases hb : bucketOf cs d with
  | none => simp [List.contains]
  | some b =>
    have hmem : (d, b) ∈ cs := bucketOf_mem hb
    simp only [Option.getD_some]
    exact contains_eq_false.mpr (h _ hmem)

theorem presentWeekly_false {cs : List (Int × List Nat)} {id : Nat}
    (h : ∀ p ∈ cs, id ∉ p.2) (w : Int) : presentWeekly cs id w = false := by
  rw [← Bool.not_eq_true, presentWeekly_iff]
  rintro ⟨p, hp, _, hmem⟩
  exact h p hp hmem

theorem presentMonthly_false {cs : List (Int × List Nat)} {id : Nat}
    (h : ∀ p ∈ cs, id ∉ p.2) (my : Nat × Int) : presentMonthly cs id my = false := by
  rw [← Bool.not_eq_true, presentMonthly_iff]
  rintro ⟨p, hp, _, _, hmem⟩
  exact h p hp hmem

/-! ## Claim theorems -/

/-- C1: for a habit of frequency `daily`, the streak stored by the
recomputation on toggle (`updateStreak`) is characterized by: every one of
the `streak` consecutive calendar days counting back from the reference
date has the habit's id in its completion bucket, and the next day back
(the first missing one) does not — so in particular the streak is 0 when
the reference day itself has no completion, regardless of earlier
non-contiguous completions. -/
theorem daily_streak_characterization (db : DB) (habitId : Nat) (today : Int)
    (hb : Habit) (hfind : db.habits.find? (fun h => h.id == habitId) = some hb)
    (hfreq : hb.frequency = Frequency.daily) :
    updateStreak today db habitId =
      ⟨updateFirstWith db.habits habitId
          (fun h =>
            { h with streak := computeStreak .daily db.completions habitId today }),
        db.completions⟩ ∧
    (∀ i : Nat, i < computeStreak .daily db.completions habitId today →
      presentDaily db.completions habitId (today - (i : Int)) = true) ∧
    presentDaily db.completions habitId
      (today - (computeStreak .daily db.completions habitId today : Int)) = false := by
  refine ⟨?_, dailyStreak_spec db.completions habitId today⟩
  unfold updateStreak
  rw [hfind]
  dsimp only
  rw [hfreq]

/-- Witness for C1 at a concrete state: completions on days 100, 99, 98 and
96 for habit 1 give streak 3 with reference day 100. -/
theorem daily_streak_characterization_witness :
    ((∀ i : Nat,
        i < computeStreak .daily [(100, [1]), (99, [1]), (98, [1]), (96, [1])] 1 100 →
        presentDaily [(100, [1]), (99, [1]), (98, [1]), (96, [1])] 1 (100 - (i : Int)) = true) ∧
      presentDaily [(100, [1]), (99, [1]), (98, [1]), (96, [1])] 1
        (100 - (computeStreak .daily [(100, [1]), (99, [1]), (98, [1]), (96, [1])] 1 100 : Int)) =
        false) ∧
    computeStreak .daily [(100, [1]), (99, [1]), (98, [1]), (96, [1])] 1 100 = 3 :=
  ⟨(daily_streak_characterization
      ⟨[⟨1, "Exercise", .daily, 1, 0, "general", "c", none, none⟩],
        [(100, [1]), (99, [1]), (98, [1]), (96, [1])]⟩
      1 100 ⟨1, "Exercise", .daily, 1, 0, "general", "c", none, none⟩ rfl rfl).2,
    by decide⟩

/-- C10: `getHabitStats` on a habit id that does not exist returns exactly
streak 0, completed 0, total_required 1 (the constant from
`habit?.target || 1` with `habit` undefined, never a stored target) and
completion_rate 0; the function reads but never writes the two collections,
so the durable state is untouched by construction. -/
theorem stats_zero_for_missing_habit (t : Int) (db : DB) (habitId : Nat)
    (h : db.habits.find? (fun hb => hb.id == habitId) = none) :
    getHabitStats t db habitId = ⟨0, 0, 1, 0⟩ := by
  unfold getHabitStats
  rw [h]

/-- Witness for C10: a store holding only habit 2 (with target 7) queried
for habit 1. -/
theorem stats_zero_for_missing_habit_witness :
    getHabitStats 0
      ⟨[⟨2, "Read", .weekly, 7, 4, "general", "c", none, none⟩], [(5, [2])]⟩ 1 =
      ⟨0, 0, 1, 0⟩ :=
  stats_zero_for_missing_habit 0
    ⟨[⟨2, "Read", .weekly, 7, 4, "general", "c", none, none⟩], [(5, [2])]⟩ 1 rfl

/-- C3 counterexample: a single completion on 2025-01-01 (ISO week 1 of
2025) makes the weekly streak at reference date 2026-01-01 equal to 1,
although no completion day lies in the ISO week actually containing
2026-01-01 (two days are in the same ISO week of the same year iff the
Thursdays of their weeks coincide) — the source compares only the ISO week
number and ignores the year. -/
theorem weekly_streak_ignores_year_cex :
    computeStreak .weekly [(daysFromCivil 2025 1 1, [1])] 1 (daysFromCivil 2026 1 1) = 1 ∧
    ∀ p ∈ [(daysFromCivil 2025 1 1, [1])], (1 : Nat) ∈ p.2 →
      thursdayOf p.1 ≠ thursdayOf (daysFromCivil 2026 1 1) := by
  decide

/-- C3 (amended): for a habit of frequency `weekly`, the streak stored by
`updateStreak` counts back ISO week numbers `w₀, w₀ - 1, …` from the
reference date's week number, without wrapping at year boundaries; a week
number is counted iff some stored completion date of any year has that ISO
week number with the habit completed, and the count stops at the first week
number with none. -/
theorem weekly_streak_characterization (db : DB) (habitId : Nat) (today : Int)
    (hb : Habit) (hfind : db.habits.find? (fun h => h.id == habitId) = some hb)
    (hfreq : hb.frequency = Frequency.weekly) :
    updateStreak today db habitId =
      ⟨updateFirstWith db.habits habitId
          (fun h =>
            { h with streak := computeStreak .weekly db.completions habitId today }),
        db.completions⟩ ∧
    (∀ i : Nat, i < computeStreak .weekly db.completions habitId today →
      ∃ p ∈ db.completions,
        getWeekNumber p.1 = getWeekNumber today - (i : Int) ∧ habitId ∈ p.2) ∧
    ¬∃ p ∈ db.completions,
        getWeekNumber p.1 =
          getWeekNumber today - (computeStreak .weekly db.completions habitId today : Int) ∧
        habitId ∈ p.2 := by
  refine ⟨?_, ?_, ?_⟩
  · unfold updateStreak
    rw [hfind]
    dsimp only
    rw [hfreq]
  · intro i hi
    exact (presentWeekly_iff _ _ _).mp ((weeklyStreak_spec db.completions habitId today).1 i hi)
  · intro hex
    have := (presentWeekly_iff db.completions habitId _).mpr hex
    rw [(weeklyStreak_spec db.completions habitId today).2] at this
    cases this

/-- Witness for the amended C3: completions for habit 1 on 2026-10-07
(week 41) and 2026-09-30 (week 40), reference date 2026-10-11 (week 41):
streak 2, and both weeks are certified by the characterization. -/
theorem weekly_streak_characterization_witness :
    ((∀ i : Nat,
        i < computeStreak .weekly
          [(daysFromCivil 2026 10 7, [1]), (daysFromCivil 2026 9 30, [1])] 1
          (daysFromCivil 2026 10 11) →
        ∃ p ∈ [(daysFromCivil 2026 10 7, [1]), (daysFromCivil 2026 9 30, [1])],
          getWeekNumber p.1 = getWeekNumber (daysFromCivil 2026 10 11) - (i : Int) ∧
          (1 : Nat) ∈ p.2) ∧
      ¬∃ p ∈ [(daysFromCivil 2026 10 7, [1]), (daysFromCivil 2026 9 30, [1])],
          getWeekNumber p.1 =
            getWeekNumber (daysFromCivil 2026 10 11) -
              (computeStreak .weekly
                [(daysFromCivil 2026 10 7, [1]), (daysFromCivil 2026 9 30, [1])] 1
                (daysFromCivil 2026 10 11) : Int) ∧
          (1 : Nat) ∈ p.2) ∧
    computeStreak .weekly
      [(daysFromCivil 2026 10 7, [1]), (daysFromCivil 2026 9 30, [1])] 1
      (daysFromCivil 2026 10 11) = 2 :=
  ⟨(weekly_streak_characterization
      ⟨[⟨1, "Run", .weekly, 1, 0, "general", "c", none, none⟩],
        [(daysFromCivil 2026 10 7, [1]), (daysFromCivil 2026 9 30, [1])]⟩
      1 (daysFromCivil 2026 10 11)
      ⟨1, "Run", .weekly, 1, 0, "general", "c", none, none⟩ rfl rfl).2,
    by decide⟩

/-- C8: each of the three streak loops terminates — the fueled embedding is
stable at the computed fuel bound, so any larger fuel yields the same
value — and a habit with no completion anywhere in the index (in particular
an empty index) gets streak 0. -/
theorem streak_recomputation_terminates (freq : Frequency)
    (cs : List (Int × List Nat)) (id : Nat) (t : Int) :
    (∀ fuel, neededFuel freq cs id t ≤ fuel →
      computeStreakFuel freq cs id t fuel = computeStreak freq cs id t) ∧
    ((∀ p ∈ cs, id ∉ p.2) → computeStreak freq cs id t = 0) := by
  constructor
  · intro fuel hfuel
    cases freq with
    | daily =>
      exact streakAux_stable (presentDaily cs id) (fun d => d - 1) fuel
        (dailyFuel cs id t) t (dailyFuel cs id t) hfuel (le_refl _) (dailyStop cs id t)
    | weekly =>
      exact streakAux_stable (presentWeekly cs id) (fun w => w - 1) fuel
        (weeklyFuel cs id (getWeekNumber t)) (getWeekNumber t)
        (weeklyFuel cs id (getWeekNumber t)) hfuel (le_refl _)
        (weeklyStop cs id (getWeekNumber t))
    | monthly =>
      exact streakAux_stable (presentMonthly cs id) stepMonth fuel
        (monthlyFuel cs id (getMonth t, getFullYear t)) (getMonth t, getFullYear t)
        (monthlyFuel cs id (getMonth t, getFullYear t)) hfuel (le_refl _)
        (monthlyStop cs id (getMonth t, getFullYear t))
  · intro hno
    cases freq with
    | daily =>
      exact streakAux_eq_of (presentDaily cs id) (fun d => d - 1) 0
        (dailyFuel cs id t) t (Nat.zero_le _) (presentDaily_false hno t)
        (fun i hi => absurd hi (Nat.not_lt_zero i))
    | weekly =>
      exact streakAux_eq_of (presentWeekly cs id) (fun w => w - 1) 0
        (weeklyFuel cs id (getWeekNumber t)) (getWeekNumber t) (Nat.zero_le _)
        (presentWeekly_false hno (getWeekNumber t))
        (fun i hi => absurd hi (Nat.not_lt_zero i))
    | monthly =>
      exact streakAux_eq_of (presentMonthly cs id) stepMonth 0
        (monthlyFuel cs id (getMonth t, getFullYear t)) (getMonth t, getFullYear t)
        (Nat.zero_le _) (presentMonthly_false hno (getMonth t, getFullYear t))
        (fun i hi => absurd hi (Nat.not_lt_zero i))

/-- Witness for C8: a weekly habit, an index containing only a completion
for a different habit, five units of surplus fuel: the loop value is stable
and the streak is 0. -/
theorem streak_recomputation_terminates_witness :
    computeStreakFuel .weekly [(daysFromCivil 2025 1 1, [2])] 1 (daysFromCivil 2026 1 1)
        (neededFuel .weekly [(daysFromCivil 2025 1 1, [2])] 1 (daysFromCivil 2026 1 1) + 5) =
      computeStreak .weekly [(daysFromCivil 2025 1 1, [2])] 1 (daysFromCivil 2026 1 1) ∧
    computeStreak .weekly [(daysFromCivil 2025 1 1, [2])] 1 (daysFromCivil 2026 1 1) = 0 :=
  ⟨(streak_recomputation_terminates .weekly [(daysFromCivil 2025 1 1, [2])] 1
      (daysFromCivil 2026 1 1)).1 _ (Nat.le_add_right _ 5),
    (streak_recomputation_terminates .weekly [(daysFromCivil 2025 1 1, [2])] 1
      (daysFromCivil 2026 1 1)).2 (by decide)⟩

/-- C6: after `deleteHabit id`, no day bucket contains `id` and no habit
with that id remains; when no habit has that id, the habit collection is
returned unchanged (the operation is total, so no error is possible). -/
theorem delete_cascade (db : DB) (id : Nat) :
    (∀ p ∈ (deleteHabit db id).completions, id ∉ p.2) ∧
    (∀ hb ∈ (deleteHabit db id).habits, hb.id ≠ id) ∧
    ((∀ hb ∈ db.habits, hb.id ≠ id) → (deleteHabit db id).habits = db.habits) := by
  refine ⟨?_, ?_, ?_⟩
  · intro p hp hmem
    unfold deleteHabit at hp
    simp only at hp
    obtain ⟨q, _, hq⟩ := List.mem_map.mp hp
    rw [← hq] at hmem
    have := (List.mem_filter.mp hmem).2
    simp at this
  · intro hb hmem
    unfold deleteHabit at hmem
    simp only at hmem
    have := (List.mem_filter.mp hmem).2
    exact bne_iff_ne.mp this
  · intro hall
    unfold deleteHabit
    simp only
    exact List.filter_eq_self.mpr (fun hb hmem => bne_iff_ne.mpr (hall hb hmem))

/-- Witness for C6 at a concrete state: deleting habit 1 purges it from
both day buckets and from the collection; deleting the absent id 9 leaves
the collection unchanged. -/
theorem delete_cascade_witness :
    (∀ p ∈ (deleteHabit
        ⟨[⟨1, "A", .daily, 1, 0, "g", "c", none, none⟩,
          ⟨2, "B", .daily, 1, 0, "g", "c", none, none⟩],
          [(10, [1, 2]), (9, [1])]⟩ 1).completions, (1 : Nat) ∉ p.2) ∧
    (∀ hb ∈ (deleteHabit
        ⟨[⟨1, "A", .daily, 1, 0, "g", "c", none, none⟩,
          ⟨2, "B", .daily, 1, 0, "g", "c", none, none⟩],
          [(10, [1, 2]), (9, [1])]⟩ 1).habits, hb.id ≠ 1) ∧
    (deleteHabit
        ⟨[⟨2, "B", .daily, 1, 0, "g", "c", none, none⟩], [(10, [2])]⟩ 9).habits =
      [⟨2, "B", .daily, 1, 0, "g", "c", none, none⟩] :=
  ⟨(delete_cascade
      ⟨[⟨1, "A", .daily, 1, 0, "g", "c", none, none⟩,
        ⟨2, "B", .daily, 1, 0, "g", "c", none, none⟩],
        [(10, [1, 2]), (9, [1])]⟩ 1).1,
    (delete_cascade
      ⟨[⟨1, "A", .daily, 1, 0, "g", "c", none, none⟩,
        ⟨2, "B", .daily, 1, 0, "g", "c", none, none⟩],
        [(10, [1, 2]), (9, [1])]⟩ 1).2.1,
    (delete_cascade
      ⟨[⟨2, "B", .daily, 1, 0, "g", "c", none, none⟩], [(10, [2])]⟩ 9).2.2
      (by decide)⟩

/-- C9 counterexample: the update payload type is
`Partial<Omit<Habit, 'id' | 'created_at'>>`, which admits `streak`; an
update carrying `streak: 5` overwrites habit 1's cached streak 0 — so the
mergeable fields are not limited to the six listed in the claim. -/
theorem update_can_change_streak_cex :
    (updateHabit ⟨[⟨1, "A", .daily, 1, 0, "g", "c", none, none⟩], []⟩ 1
        ⟨none, none, none, some 5, none, none, none⟩).habits =
      [⟨1, "A", .daily, 1, 5, "g", "c", none, none⟩] := by
  decide

/-- C9 (amended): the fields `updateHabit` can merge are limited to name,
frequency, target, streak, category, reminder_time and notes — `id` and
`created_at` can never change; only the first habit whose id matches is
modified (and only by the merge), every other habit is untouched, the
completion index is untouched, and the state is unchanged when no habit
with that id exists. -/
theorem update_habit_frame (db : DB) (id : Nat) (u : HabitUpdates) :
    (updateHabit db id u).completions = db.completions ∧
    ((∀ hb ∈ db.habits, hb.id ≠ id) → updateHabit db id u = db) ∧
    List.Forall₂
      (fun hb hb' => hb'.id = hb.id ∧ hb'.created_at = hb.created_at ∧
        (hb' = hb ∨ (hb.id = id ∧ hb' = applyUpdates hb u)))
      db.habits (updateHabit db id u).habits := by
  refine ⟨rfl, ?_, ?_⟩
  · intro hall
    unfold updateHabit
    rw [updateFirstWith_eq_self hall]
  · have base := updateFirstWith_forall₂ db.habits id (fun hb => applyUpdates hb u)
    have : (updateHabit db id u).habits =
        updateFirstWith db.habits id (fun hb => applyUpdates hb u) := rfl
    rw [this]
    refine List.Forall₂.imp ?_ base
    intro a b hab
    rcases hab with hab | ⟨hid, hab⟩
    · exact ⟨by rw [hab], by rw [hab], Or.inl hab⟩
    · refine ⟨?_, ?_, Or.inr ⟨hid, hab⟩⟩
      · rw [hab]; rfl
      · rw [hab]; rfl

/-- Witness for the amended C9: updating habit 1's name in a two-habit
store leaves the completions, habit 2, and habit 1's id and created_at
unchanged. -/
theorem update_habit_frame_witness :
    (updateHabit ⟨[⟨1, "A", .daily, 1, 0, "g", "c", none, none⟩,
        ⟨2, "B", .weekly, 2, 3, "g", "d", none, none⟩], [(10, [1])]⟩ 1
        ⟨some "Z", none, none, none, none, none, none⟩).completions = [(10, [1])] ∧
    (updateHabit ⟨[⟨2, "B", .weekly, 2, 3, "g", "d", none, none⟩], []⟩ 1
        ⟨some "Z", none, none, none, none, none, none⟩) =
      ⟨[⟨2, "B", .weekly, 2, 3, "g", "d", none, none⟩], []⟩ ∧
    List.Forall₂
      (fun hb hb' => hb'.id = hb.id ∧ hb'.created_at = hb.created_at ∧
        (hb' = hb ∨ (hb.id = 1 ∧ hb' = applyUpdates hb ⟨some "Z", none, none, none, none, none, none⟩)))
      [⟨1, "A", .daily, 1, 0, "g", "c", none, none⟩,
        ⟨2, "B", .weekly, 2, 3, "g", "d", none, none⟩]
      (updateHabit ⟨[⟨1, "A", .daily, 1, 0, "g", "c", none, none⟩,
        ⟨2, "B", .weekly, 2, 3, "g", "d", none, none⟩], [(10, [1])]⟩ 1
        ⟨some "Z", none, none, none, none, none, none⟩).habits :=
  ⟨(update_habit_frame ⟨[⟨1, "A", .daily, 1, 0, "g", "c", none, none⟩,
      ⟨2, "B", .weekly, 2, 3, "g", "d", none, none⟩], [(10, [1])]⟩ 1
      ⟨some "Z", none, none, none, none, none, none⟩).1,
    (update_habit_frame ⟨[⟨2, "B", .weekly, 2, 3, "g", "d", none, none⟩], []⟩ 1
      ⟨some "Z", none, none, none, none, none, none⟩).2.1 (by decide),
    (update_habit_frame ⟨[⟨1, "A", .daily, 1, 0, "g", "c", none, none⟩,
      ⟨2, "B", .weekly, 2, 3, "g", "d", none, none⟩], [(10, [1])]⟩ 1
      ⟨some "Z", none, none, none, none, none, none⟩).2.2⟩

/-- Prop reading of the stats monthly guard, which — unlike the monthly
streak loop — compares only the zero-based month and never the year. -/
theorem statsMonthly_iff (cs : List (Int × List Nat)) (id m : Nat) :
    cs.any (fun p => getMonth p.1 == m && p.2.contains id) = true ↔
      ∃ p ∈ cs, getMonth p.1 = m ∧ id ∈ p.2 := by
  rw [List.any_eq_true]
  constructor
  · rintro ⟨p, hp, hcond⟩
    rw [Bool.and_eq_true] at hcond
    refine ⟨p, hp, beq_iff_eq.mp hcond.1, ?_⟩
    have := hcond.2
    simpa [List.contains] using this
  · rintro ⟨p, hp, hm, hmem⟩
    refine ⟨p, hp, ?_⟩
    rw [Bool.and_eq_true]
    exact ⟨beq_iff_eq.mpr hm, by simpa [List.contains] using hmem⟩

/-- C4 counterexample: a monthly habit whose only completion is on
2025-03-10 is reported `completed = 1` by `getHabitStats` at reference date
2026-03-15, although no completion lies in the calendar month (March 2026)
containing the reference date — the source compares only `getMonth()` and
ignores the year. -/
theorem stats_month_ignores_year_cex :
    (getHabitStats (daysFromCivil 2026 3 15)
        ⟨[⟨1, "A", .monthly, 2, 0, "g", "c", none, none⟩],
          [(daysFromCivil 2025 3 10, [1])]⟩ 1).completed = 1 ∧
    ∀ p ∈ [(daysFromCivil 2025 3 10, [1])],
      ¬(getMonth p.1 = getMonth (daysFromCivil 2026 3 15) ∧
        getFullYear p.1 = getFullYear (daysFromCivil 2026 3 15) ∧ (1 : Nat) ∈ p.2) := by
  decide

/-- C4 (amended): for an existing habit, `getHabitStats` returns
`completed = 1` exactly when — daily: the reference day's bucket contains
the habit; weekly: some completion date of any year has the reference
date's ISO week number; monthly: some completion date of any year has the
reference date's zero-based month (year ignored in both non-daily modes) —
and `completed = 0` otherwise; `completion_rate` is `completed * 100`,
`total_required` is the stored target and `streak` the cached streak. -/
theorem stats_characterization (t : Int) (db : DB) (habitId : Nat) (hb : Habit)
    (hfind : db.habits.find? (fun h => h.id == habitId) = some hb) :
    (getHabitStats t db habitId).streak = hb.streak ∧
    (getHabitStats t db habitId).total_required = hb.target ∧
    (getHabitStats t db habitId).completion_rate =
      (getHabitStats t db habitId).completed * 100 ∧
    ((getHabitStats t db habitId).completed = 0 ∨
      (getHabitStats t db habitId).completed = 1) ∧
    ((getHabitStats t db habitId).completed = 1 ↔
      match hb.frequency with
      | .daily => ∃ b, bucketOf db.completions t = some b ∧ habitId ∈ b
      | .weekly =>
        ∃ p ∈ db.completions, getWeekNumber p.1 = getWeekNumber t ∧ habitId ∈ p.2
      | .monthly =>
        ∃ p ∈ db.completions, getMonth p.1 = getMonth t ∧ habitId ∈ p.2) := by
  unfold getHabitStats
  rw [hfind]
  dsimp only
  cases hfq : hb.frequency with
  | daily =>
    dsimp only
    cases hc : presentDaily db.completions habitId t with
    | false =>
      rw [show ((bucketOf db.completions t).getD []).contains habitId = false from hc]
      refine ⟨rfl, rfl, rfl, Or.inl rfl, ?_⟩
      constructor
      · intro h; exact absurd h (by decide)
      · intro hp
        have := (presentDaily_iff db.completions habitId t).mpr hp
        rw [hc] at this
        cases this
    | true =>
      rw [show ((bucketOf db.completions t).getD []).contains habitId = true from hc]
      refine ⟨rfl, rfl, rfl, Or.inr rfl, ?_⟩
      exact ⟨fun _ => (presentDaily_iff db.completions habitId t).mp hc, fun _ => rfl⟩
  | weekly =>
    dsimp only
    cases hc : presentWeekly db.completions habitId (getWeekNumber t) with
    | false =>
      rw [show db.completions.any
          (fun p => getWeekNumber p.1 == getWeekNumber t && p.2.contains habitId) = false from hc]
      refine ⟨rfl, rfl, rfl, Or.inl rfl, ?_⟩
      constructor
      · intro h; exact absurd h (by decide)
      · intro hp
        have := (presentWeekly_iff db.completions habitId (getWeekNumber t)).mpr hp
        rw [hc] at this
        cases this
    | true =>
      rw [show db.completions.any
          (fun p => getWeekNumber p.1 == getWeekNumber t && p.2.contains habitId) = true from hc]
      refine ⟨rfl, rfl, rfl, Or.inr rfl, ?_⟩
      exact ⟨fun _ => (presentWeekly_iff db.completions habitId (getWeekNumber t)).mp hc,
        fun _ => rfl⟩
  | monthly =>
    dsimp only
    cases hc : db.completions.any
        (fun p => getMonth p.1 == getMonth t && p.2.contains habitId) with
    | false =>
      refine ⟨rfl, rfl, rfl, Or.inl rfl, ?_⟩
      constructor
      · intro h; exact absurd h (by decide)
      · intro hp
        have := (statsMonthly_iff db.completions habitId (getMonth t)).mpr hp
        rw [hc] at this
        cases this
    | true =>
      refine ⟨rfl, rfl, rfl, Or.inr rfl, ?_⟩
      exact ⟨fun _ => (statsMonthly_iff db.completions habitId (getMonth t)).mp hc,
        fun _ => rfl⟩

/-- Witness for the amended C4: a weekly habit with cached streak 4 and a
completion four days before the reference date, in the same ISO week. -/
theorem stats_characterization_witness :
    (getHabitStats (daysFromCivil 2026 10 11)
        ⟨[⟨1, "A", .weekly, 1, 4, "g", "c", none, none⟩],
          [(daysFromCivil 2026 10 7, [1])]⟩ 1).streak = 4 ∧
    (getHabitStats (daysFromCivil 2026 10 11)
        ⟨[⟨1, "A", .weekly, 1, 4, "g", "c", none, none⟩],
          [(daysFromCivil 2026 10 7, [1])]⟩ 1).completion_rate =
      (getHabitStats (daysFromCivil 2026 10 11)
        ⟨[⟨1, "A", .weekly, 1, 4, "g", "c", none, none⟩],
          [(daysFromCivil 2026 10 7, [1])]⟩ 1).completed * 100 ∧
    ((getHabitStats (daysFromCivil 2026 10 11)
        ⟨[⟨1, "A", .weekly, 1, 4, "g", "c", none, none⟩],
          [(daysFromCivil 2026 10 7, [1])]⟩ 1).completed = 1 ↔
      ∃ p ∈ [(daysFromCivil 2026 10 7, [1])],
        getWeekNumber p.1 = getWeekNumber (daysFromCivil 2026 10 11) ∧ (1 : Nat) ∈ p.2) :=
  ⟨(stats_characterization (daysFromCivil 2026 10 11)
      ⟨[⟨1, "A", .weekly, 1, 4, "g", "c", none, none⟩],
        [(daysFromCivil 2026 10 7, [1])]⟩ 1
      ⟨1, "A", .weekly, 1, 4, "g", "c", none, none⟩ rfl).1,
    (stats_characterization (daysFromCivil 2026 10 11)
      ⟨[⟨1, "A", .weekly, 1, 4, "g", "c", none, none⟩],
        [(daysFromCivil 2026 10 7, [1])]⟩ 1
      ⟨1, "A", .weekly, 1, 4, "g", "c", none, none⟩ rfl).2.2.1,
    (stats_characterization (daysFromCivil 2026 10 11)
      ⟨[⟨1, "A", .weekly, 1, 4, "g", "c", none, none⟩],
        [(daysFromCivil 2026 10 7, [1])]⟩ 1
      ⟨1, "A", .weekly, 1, 4, "g", "c", none, none⟩ rfl).2.2.2.2⟩

/-! ## Referential-integrity machinery for C2 -/

theorem mem_ensureBucket {t : Int} {cs : List (Int × List Nat)}
    {p : Int × List Nat} (hp : p ∈ ensureBucket t cs) :
    p ∈ cs ∨ p = (t, []) := by
  unfold ensureBucket at hp
  cases hb : bucketOf cs t with
  | none =>
    rw [hb] at hp
    rcases List.mem_append.mp hp with h | h
    · exact Or.inl h
    · exact Or.inr (List.mem_singleton.mp h)
  | some b =>
    rw [hb] at hp
    exact Or.inl hp

theorem mem_ensureBucket_bucket {t : Int} {cs : List (Int × List Nat)} {x : Nat}
    (hx : x ∈ (bucketOf (ensureBucket t cs) t).getD []) :
    ∃ q ∈ cs, x ∈ q.2 := by
  cases hb : bucketOf (ensureBucket t cs) t with
  | none => rw [hb] at hx; cases hx
  | some b =>
    rw [hb] at hx
    simp only [Option.getD_some] at hx
    rcases mem_ensureBucket (bucketOf_mem hb) with h | h
    · exact ⟨(t, b), h, hx⟩
    · injection h with _ h2
      rw [h2] at hx
      cases hx

theorem toggleCompletions_elems (t : Int) (cs : List (Int × List Nat))
    (id : Nat) (c : Bool) :
    ∀ p ∈ toggleCompletions t cs id c, ∀ x ∈ p.2,
      (x = id ∧ c = true) ∨ ∃ q ∈ cs, x ∈ q.2 := by
  intro p hp x hx
  unfold toggleCompletions at hp
  by_cases h1 : (c && !((bucketOf (ensureBucket t cs) t).getD []).contains id) = true
  · rw [if_pos h1] at hp
    rcases setBucket_mem hp with h | h
    · rw [h] at hx
      rcases List.mem_append.mp hx with h2 | h2
      · exact Or.inr (mem_ensureBucket_bucket h2)
      · exact Or.inl ⟨List.mem_singleton.mp h2, (Bool.and_eq_true _ _ |>.mp h1).1⟩
    · rcases mem_ensureBucket h with h2 | h2
      · exact Or.inr ⟨p, h2, hx⟩
      · rw [h2] at hx; cases hx
  · rw [if_neg h1] at hp
    by_cases h2 : (!c) = true
    · rw [if_pos h2] at hp
      rcases setBucket_mem hp with h | h
      · rw [h] at hx
        have := (List.mem_filter.mp hx).1
        exact Or.inr (mem_ensureBucket_bucket this)
      · rcases mem_ensureBucket h with h3 | h3
        · exact Or.inr ⟨p, h3, hx⟩
        · rw [h3] at hx; cases hx
    · rw [if_neg h2] at hp
      rcases mem_ensureBucket hp with h3 | h3
      · exact Or.inr ⟨p, h3, hx⟩
      · rw [h3] at hx; cases hx

theorem updateStreak_integrity (t : Int) (db : DB) (id : Nat)
    (h : RefIntegrity db) : RefIntegrity (updateStreak t db id) := by
  unfold updateStreak
  cases hf : db.habits.find? (fun hb => hb.id == id) with
  | none => exact h
  | some hb =>
    dsimp only
    intro p hp x hx
    exact @updateFirstWith_ids db.habits id
      (fun hh => { hh with streak := computeStreak hb.frequency db.completions id t })
      (fun _ => rfl) x (h p hp x hx)

/-- C2 counterexample: toggling completion `true` for habit id 5 on an
empty, initialized store writes `5` into today's bucket even though no
habit with id 5 exists — the completion object is written before the habit
lookup, so the call is not a no-op on the durable state and referential
integrity is broken. -/
theorem toggle_nonexistent_habit_cex :
    (toggleHabitCompletion 0 initialDB 5 true).completions = [(0, [5])] ∧
    toggleHabitCompletion 0 initialDB 5 true ≠ initialDB ∧
    ¬RefIntegrity (toggleHabitCompletion 0 initialDB 5 true) := by
  decide

/-- C2 (amended): the initialized empty state satisfies referential
integrity of the completion index, and from any state satisfying it the
invariant is preserved by `addHabit`, `deleteHabit`, `updateHabit`,
`updateStreak`, and by `toggleHabitCompletion` whenever `completed = false`
or the toggled habit id exists; `getHabitStats` reads but never writes the
collections.  (Toggling `true` for a nonexistent id is the one exception:
it inserts the id into today's bucket — see the counterexample.) -/
theorem ref_integrity_preserved (db : DB) (h : RefIntegrity db) :
    RefIntegrity initialDB ∧
    (∀ name freq target category rt notes created,
      RefIntegrity (addHabit db name freq target category rt notes created).1) ∧
    (∀ id, RefIntegrity (deleteHabit db id)) ∧
    (∀ id u, RefIntegrity (updateHabit db id u)) ∧
    (∀ t id, RefIntegrity (updateStreak t db id)) ∧
    (∀ t id c, (c = true → ∃ hb ∈ db.habits, hb.id = id) →
      RefIntegrity (toggleHabitCompletion t db id c)) := by
  refine ⟨?_, ?_, ?_, ?_, ?_, ?_⟩
  · intro p hp
    cases hp
  · intro name freq target category rt notes created p hp x hx
    obtain ⟨h0, hmem, hid⟩ := h p hp x hx
    exact ⟨h0, List.mem_append_left _ hmem, hid⟩
  · intro id p hp x hx
    unfold deleteHabit at hp
    simp only at hp
    obtain ⟨q, hq, hqeq⟩ := List.mem_map.mp hp
    rw [← hqeq] at hx
    have hx2 := List.mem_filter.mp hx
    obtain ⟨h0, hmem, hid⟩ := h q hq x hx2.1
    refine ⟨h0, ?_, hid⟩
    simp only [deleteHabit]
    refine List.mem_filter.mpr ⟨hmem, ?_⟩
    rw [bne_iff_ne]
    intro hcon
    rw [hid] at hcon
    rw [hcon] at hx2
    have := hx2.2
    simp at this
  · intro id u p hp x hx
    exact @updateFirstWith_ids db.habits id (fun hh => applyUpdates hh u)
      (fun _ => rfl) x (h p hp x hx)
  · intro t id
    exact updateStreak_integrity t db id h
  · intro t id c hguard
    apply updateStreak_integrity
    intro p hp x hx
    rcases toggleCompletions_elems t db.completions id c p hp x hx with ⟨hxid, hc⟩ | ⟨q, hq, hqx⟩
    · subst hxid
      exact hguard hc
    · exact h q hq x hqx

/-- Witness for the amended C2: a store with habit 1 and one completion
keeps referential integrity across a delete and a toggle of the existing
habit. -/
theorem ref_integrity_preserved_witness :
    RefIntegrity (deleteHabit
      ⟨[⟨1, "A", .daily, 1, 0, "g", "c", none, none⟩], [(3, [1])]⟩ 1) ∧
    RefIntegrity (toggleHabitCompletion 3
      ⟨[⟨1, "A", .daily, 1, 0, "g", "c", none, none⟩], [(3, [1])]⟩ 1 true) :=
  ⟨(ref_integrity_preserved
      ⟨[⟨1, "A", .daily, 1, 0, "g", "c", none, none⟩], [(3, [1])]⟩ (by decide)).2.2.1 1,
    (ref_integrity_preserved
      ⟨[⟨1, "A", .daily, 1, 0, "g", "c", none, none⟩], [(3, [1])]⟩ (by decide)).2.2.2.2.2
      3 1 true
      (fun _ => ⟨⟨1, "A", .daily, 1, 0, "g", "c", none, none⟩, by decide, rfl⟩)⟩

/-! ## Toggle idempotence machinery for C7 -/

theorem bucketOf_ensureBucket_self (t : Int) (cs : List (Int × List Nat)) :
    bucketOf (ensureBucket t cs) t = some ((bucketOf cs t).getD []) := by
  unfold ensureBucket
  cases hb : bucketOf cs t with
  | none => exact bucketOf_append_singleton_self [] hb
  | some b => exact hb

theorem toggleCompletions_true_contains (t : Int) (cs : List (Int × List Nat))
    (id : Nat) :
    ((bucketOf (toggleCompletions t cs id true) t).getD []).contains id = true := by
  unfold toggleCompletions
  by_cases hc : ((bucketOf (ensureBucket t cs) t).getD []).contains id
  · have hcond : (true && !((bucketOf (ensureBucket t cs) t).getD []).contains id) = false := by
      rw [hc]; rfl
    rw [hcond]
    simp only [Bool.false_eq_true, if_false, Bool.not_true, if_false]
    exact hc
  · have hcf : ((bucketOf (ensureBucket t cs) t).getD []).contains id = false :=
      Bool.not_eq_true _ |>.mp hc
    have hcond : (true && !((bucketOf (ensureBucket t cs) t).getD []).contains id) = true := by
      rw [hcf]; rfl
    rw [hcond]
    simp only [if_true]
    rw [bucketOf_setBucket_self]
    simp [List.contains]

theorem toggleCompletions_true_of_contains {t : Int} {cs : List (Int × List Nat)}
    {id : Nat} (h : ((bucketOf cs t).getD []).contains id = true) :
    toggleCompletions t cs id true = cs := by
  have hsome : ∃ b, bucketOf cs t = some b := by
    cases hb : bucketOf cs t with
    | none =>
      rw [hb] at h
      simp [List.contains] at h
    | some b => exact ⟨b, rfl⟩
  obtain ⟨b, hb⟩ := hsome
  have hens : ensureBucket t cs = cs := by
    unfold ensureBucket
    rw [hb]
  unfold toggleCompletions
  rw [hens, h]
  rfl

theorem toggleCompletions_true_idem (t : Int) (cs : List (Int × List Nat)) (id : Nat) :
    toggleCompletions t (toggleCompletions t cs id true) id true =
      toggleCompletions t cs id true :=
  toggleCompletions_true_of_contains (toggleCompletions_true_contains t cs id)

theorem ensureBucket_getD (t : Int) (cs : List (Int × List Nat)) (d : Int) :
    (bucketOf (ensureBucket t cs) d).getD [] = (bucketOf cs d).getD [] := by
  unfold ensureBucket
  cases hb : bucketOf cs t with
  | none =>
    by_cases hd : d = t
    · subst hd
      rw [bucketOf_append_singleton_self [] hb, hb]
      rfl
    · rw [bucketOf_append_singleton_ne cs t d [] hd]
  | some b => rfl

theorem toggleCompletions_false_noop (t : Int) (cs : List (Int × List Nat))
    (id : Nat) (habsent : presentDaily cs id t = false) :
    toggleCompletions t cs id false = ensureBucket t cs := by
  unfold toggleCompletions
  simp only [Bool.false_and, Bool.false_eq_true, if_false, Bool.not_false, if_true]
  have hbucket : (bucketOf (ensureBucket t cs) t).getD [] = (bucketOf cs t).getD [] :=
    ensureBucket_getD t cs t
  have hnotmem : id ∉ (bucketOf cs t).getD [] := by
    unfold presentDaily at habsent
    exact contains_eq_false.mp habsent
  have hfilter : ((bucketOf (ensureBucket t cs) t).getD []).filter (fun x => x != id) =
      (bucketOf (ensureBucket t cs) t).getD [] := by
    refine List.filter_eq_self.mpr ?_
    intro a ha
    rw [hbucket] at ha
    rw [bne_iff_ne]
    intro hcon
    rw [hcon] at ha
    exact hnotmem ha
  rw [hfilter, hbucket]
  exact setBucket_eq_self (bucketOf_ensureBucket_self t cs)

/-- C7 counterexample: on an empty completion object (habit 1 trivially
absent from today's bucket), toggling `false` creates an empty bucket for
today in the stored object — the durable completion object changes, so the
call is not literally a no-op on the stored representation. -/
theorem toggle_false_creates_empty_bucket_cex :
    presentDaily initialDB.completions 1 0 = false ∧
    (toggleHabitCompletion 0 initialDB 1 false).completions = [(0, [])] ∧
    (toggleHabitCompletion 0 initialDB 1 false).completions ≠ initialDB.completions := by
  decide

/-- C7 (amended): toggling `true` twice yields exactly the same stored
completion object as toggling once; toggling `false` while the id is
absent from today's bucket leaves the contents of every day's bucket
unchanged (it is a no-op on the day-to-set semantics of the index), though
it may create an empty entry for today in the stored object. -/
theorem toggle_idempotence (t : Int) (db : DB) (id : Nat) :
    (toggleHabitCompletion t (toggleHabitCompletion t db id true) id true).completions =
      (toggleHabitCompletion t db id true).completions ∧
    (presentDaily db.completions id t = false →
      ∀ d, (bucketOf (toggleHabitCompletion t db id false).completions d).getD [] =
        (bucketOf db.completions d).getD []) := by
  constructor
  · unfold toggleHabitCompletion
    simp only [updateStreak_completions]
    exact toggleCompletions_true_idem t db.completions id
  · intro habsent d
    unfold toggleHabitCompletion
    simp only [updateStreak_completions]
    rw [toggleCompletions_false_noop t db.completions id habsent]
    exact ensureBucket_getD t db.completions d

/-- Witness for the amended C7 at a concrete state: double-complete of
habit 1 equals a single complete, and un-completing the absent habit 2
changes no bucket's contents. -/
theorem toggle_idempotence_witness :
    (toggleHabitCompletion 5
        (toggleHabitCompletion 5 ⟨[⟨1, "A", .daily, 1, 0, "g", "c", none, none⟩],
          [(4, [1])]⟩ 1 true) 1 true).completions =
      (toggleHabitCompletion 5 ⟨[⟨1, "A", .daily, 1, 0, "g", "c", none, none⟩],
          [(4, [1])]⟩ 1 true).completions ∧
    ∀ d, (bucketOf (toggleHabitCompletion 5
        ⟨[⟨1, "A", .daily, 1, 0, "g", "c", none, none⟩], [(4, [1])]⟩ 2 false).completions
          d).getD [] =
      (bucketOf [(4, [1])] d).getD [] :=
  ⟨(toggle_idempotence 5 ⟨[⟨1, "A", .daily, 1, 0, "g", "c", none, none⟩],
      [(4, [1])]⟩ 1).1,
    (toggle_idempotence 5 ⟨[⟨1, "A", .daily, 1, 0, "g", "c", none, none⟩],
      [(4, [1])]⟩ 2).2 (by decide)⟩

/-- C5: the spec's scenario on an empty initialized store — adding habit
"Exercise" (daily, target 1) returns id 1 and stores streak 0; after
toggling complete for the reference day, `getHabitStats` reports
streak 1, completed 1, total_required 1, completion_rate 100; after
toggling incomplete on the same day, it reports streak 0, completed 0,
total_required 1, completion_rate 0. -/
theorem scenario_add_toggle_stats (today : Int) (created : String) :
    (addHabit initialDB "Exercise" .daily 1 "general" none none created).2 = 1 ∧
    (addHabit initialDB "Exercise" .daily 1 "general" none none created).1.habits =
      [⟨1, "Exercise", .daily, 1, 0, "general", created, none, none⟩] ∧
    getHabitStats today
      (toggleHabitCompletion today
        (addHabit initialDB "Exercise" .daily 1 "general" none none created).1 1 true) 1 =
      ⟨1, 1, 1, 100⟩ ∧
    getHabitStats today
      (toggleHabitCompletion today
        (toggleHabitCompletion today
          (addHabit initialDB "Exercise" .daily 1 "general" none none created).1 1 true)
        1 false) 1 =
      ⟨0, 0, 1, 0⟩ := by
  refine ⟨rfl, rfl, ?_, ?_⟩
  · simp [addHabit, initialDB, toggleHabitCompletion, toggleCompletions, ensureBucket,
      bucketOf, setBucket, updateStreak, List.find?, computeStreak, computeStreakFuel,
      streakAux, dailyFuel, dailyLows, entriesWith, minWith, presentDaily,
      updateFirstWith, getHabitStats, List.contains]
  · simp [addHabit, initialDB, toggleHabitCompletion, toggleCompletions, ensureBucket,
      bucketOf, setBucket, updateStreak, List.find?, computeStreak, computeStreakFuel,
      streakAux, dailyFuel, dailyLows, entriesWith, minWith, presentDaily,
      updateFirstWith, getHabitStats, List.contains]
